import Mathlib

/-!
Verification of the aubio spectral FFT wrapper (src/spectral/fft.c).

The file shallowly embeds the conversion logic of fft.c over real numbers:
buffers are modelled as total functions `ℕ → ℝ` (only indices below the
buffer's length are meaningful), and the external FFTW engine is modelled,
following the specification, as the exact unnormalized real DFT and its
unnormalized halfcomplex inverse.  The `HAVE_COMPLEX_H` build of fft.c is
the one embedded (fft_size = winsize/2 + 1, native complex engine output).
-/

/-- Modelled from the spec: the external transform engine's forward
real-to-complex transform (`fftw_execute(s->pfw)` on a `fftw_plan_dft_r2c_1d`
plan), taken as the exact unnormalized DFT of the length-`N` real input `x`
at bin `k`. -/
noncomputable def dft (N : ℕ) (x : ℕ → ℝ) (k : ℕ) : ℂ :=
  ∑ m ∈ Finset.range N,
    (x m : ℂ) * Complex.exp (-(2 * (Real.pi : ℂ) * Complex.I * k * m) / N)

/-- Hermitian extension of a halfcomplex spectrum buffer: bins above `N/2`
are the conjugates of their mirror bins, as FFTW's `c2r` transform assumes. -/
noncomputable def hermext (N : ℕ) (spec : ℕ → ℂ) (k : ℕ) : ℂ :=
  if k ≤ N / 2 then spec k else (starRingEnd ℂ) (spec (N - k))

/-- Modelled from the spec: the engine's inverse halfcomplex-to-complex-to-real
transform (`fftw_execute(s->pbw)` on a `fftw_plan_dft_c2r_1d` plan), the
unnormalized inverse DFT of the hermitian extension of `spec`. -/
noncomputable def idft (N : ℕ) (spec : ℕ → ℂ) (n : ℕ) : ℝ :=
  (∑ k ∈ Finset.range N,
    hermext N spec k * Complex.exp (2 * (Real.pi : ℂ) * Complex.I * k * n / N)).re

/-- Polar spectrum container (`cvec_t`): parallel magnitude and phase arrays
of length `winsize/2 + 1`. -/
structure Cvec where
  norm : ℕ → ℝ
  phas : ℕ → ℝ

/-- The C `ATAN2(y, x)` macro (`atan2`), modelled as the argument of the
complex number `x + y i`; its value lies in `(-π, π]` and `ATAN2 0 0 = 0`. -/
noncomputable def ATAN2 (y x : ℝ) : ℝ := Complex.arg ⟨x, y⟩

/-- Translated from `aubio_fft_get_phas` (fft.c:192-208).  `N` is the packed
vector's length (`compspec->length`); the spectrum's length is `N/2 + 1`, so
its last index (`spectrum->length - 1`) is `N/2`.  Indices past `N/2` lie
outside the spectrum array and are mapped to `0`. -/
noncomputable def aubio_fft_get_phas (N : ℕ) (compspec : ℕ → ℝ) : ℕ → ℝ :=
  fun j =>
    if j = 0 then (if compspec 0 < 0 then Real.pi else 0)
    else if j < N / 2 then ATAN2 (compspec (N - j)) (compspec j)
    else if j = N / 2 then (if compspec (N / 2) < 0 then Real.pi else 0)
    else 0

/-- Translated from `aubio_fft_get_norm` (fft.c:210-219); `SQR(x)` is `x*x`,
`ABS` is absolute value, `SQRT` is the real square root. -/
noncomputable def aubio_fft_get_norm (N : ℕ) (compspec : ℕ → ℝ) : ℕ → ℝ :=
  fun j =>
    if j = 0 then |compspec 0|
    else if j < N / 2 then
      Real.sqrt (compspec j * compspec j + compspec (N - j) * compspec (N - j))
    else if j = N / 2 then |compspec (N / 2)|
    else 0

/-- Translated from `aubio_fft_get_spectrum` (fft.c:182-185): fill `phas`,
then `norm`. -/
noncomputable def aubio_fft_get_spectrum (N : ℕ) (compspec : ℕ → ℝ) : Cvec :=
  { norm := aubio_fft_get_norm N compspec, phas := aubio_fft_get_phas N compspec }

/-- Translated from `aubio_fft_get_imag` (fft.c:221-227): for
`1 ≤ j < (N+1)/2` the entry `compspec[N-j]` becomes `norm[j]*sin(phas[j])`;
every other entry of `compspec` is left unchanged.  An index `i` is written
exactly when `j := N - i` satisfies the loop bounds. -/
noncomputable def aubio_fft_get_imag (N : ℕ) (spectrum : Cvec) (compspec : ℕ → ℝ) : ℕ → ℝ :=
  fun i =>
    if 1 ≤ N - i ∧ N - i < (N + 1) / 2 then
      spectrum.norm (N - i) * Real.sin (spectrum.phas (N - i))
    else compspec i

/-- Translated from `aubio_fft_get_real` (fft.c:229-235): for
`0 ≤ j < N/2 + 1` the entry `compspec[j]` becomes `norm[j]*cos(phas[j])`;
entries above `N/2` are left unchanged. -/
noncomputable def aubio_fft_get_real (N : ℕ) (spectrum : Cvec) (compspec : ℕ → ℝ) : ℕ → ℝ :=
  fun i =>
    if i < N / 2 + 1 then spectrum.norm i * Real.cos (spectrum.phas i)
    else compspec i

/-- Translated from `aubio_fft_get_realimag` (fft.c:187-190): imaginary
parts first, then real parts. -/
noncomputable def aubio_fft_get_realimag (N : ℕ) (spectrum : Cvec) (compspec : ℕ → ℝ) : ℕ → ℝ :=
  aubio_fft_get_real N spectrum (aubio_fft_get_imag N spectrum compspec)

/-- Scratch state of one `aubio_fft_t` instance: the `in` and `out` real
buffers, the engine's `specdata` buffer and the packed `compspec` vector. -/
structure FFTScratch where
  inb : ℕ → ℝ
  outb : ℕ → ℝ
  specdata : ℕ → ℂ
  compspec : ℕ → ℝ

/-- Translated from `aubio_fft_do_complex` (fft.c:141-159, complex build):
copy the input frame into `s->in`, run the forward plan, then unpack the
engine's complex bins into the packed halfcomplex layout.  Real parts go to
indices `0..N/2`; the imaginary part of bin `N-i` goes to index `i` exactly
when `1 ≤ N-i < N/2`; any other entry of `compspec` keeps its old value
(for odd `N` index `(N+1)/2` is never written). -/
noncomputable def aubio_fft_do_complex (N : ℕ) (s : FFTScratch) (input : ℕ → ℝ) : FFTScratch :=
  let inb2 : ℕ → ℝ := fun i => if i < N then input i else s.inb i
  let sd2 : ℕ → ℂ := fun k => if k < N / 2 + 1 then dft N inb2 k else s.specdata k
  let cs2 : ℕ → ℝ := fun i =>
    if i ≤ N / 2 then (sd2 i).re
    else if 1 ≤ N - i ∧ N - i < N / 2 then (sd2 (N - i)).im
    else s.compspec i
  { inb := inb2, outb := s.outb, specdata := sd2, compspec := cs2 }

/-- Translated from `aubio_fft_rdo_complex` (fft.c:161-180, complex build):
pack `compspec` into the engine's `specdata` (bin `0` and bin `N/2` loaded as
purely real, interior bins as `compspec[k] + I*compspec[N-k]`), run the
inverse plan into `s->out`, and emit `out[j] * (1/winsize)`.  Returns the
updated scratch state together with the output frame. -/
noncomputable def aubio_fft_rdo_complex (N : ℕ) (s : FFTScratch) (compspec : ℕ → ℝ) :
    FFTScratch × (ℕ → ℝ) :=
  let sd2 : ℕ → ℂ := fun k =>
    if k = 0 then (compspec 0 : ℂ)
    else if k < N / 2 then (compspec k : ℂ) + Complex.I * (compspec (N - k) : ℂ)
    else if k = N / 2 then (compspec (N / 2) : ℂ)
    else s.specdata k
  let outb2 : ℕ → ℝ := fun n => if n < N then idft N sd2 n else s.outb n
  ({ inb := s.inb, outb := outb2, specdata := sd2, compspec := s.compspec },
    fun n => outb2 n * (1 / (N : ℝ)))

/-- Translated from `aubio_fft_do` (fft.c:131-134): forward transform into
`s->compspec`, then convert to the polar spectrum. -/
noncomputable def aubio_fft_do (N : ℕ) (s : FFTScratch) (input : ℕ → ℝ) : FFTScratch × Cvec :=
  let s2 := aubio_fft_do_complex N s input
  (s2, aubio_fft_get_spectrum N s2.compspec)

/-- Translated from `aubio_fft_rdo` (fft.c:136-139): rebuild `s->compspec`
from the polar spectrum, then run the inverse transform. -/
noncomputable def aubio_fft_rdo (N : ℕ) (s : FFTScratch) (spectrum : Cvec) : FFTScratch × (ℕ → ℝ) :=
  let cs2 := aubio_fft_get_realimag N spectrum s.compspec
  aubio_fft_rdo_complex N { s with compspec := cs2 } cs2

/-- Scratch state of a freshly constructed instance: `new_aubio_fft`
zero-initializes `in`, `out` and `specdata` (fft.c:110-116), and `new_fvec`
zero-initializes `compspec`. -/
def fftScratchZero : FFTScratch :=
  { inb := fun _ => 0, outb := fun _ => 0, specdata := fun _ => 0, compspec := fun _ => 0 }

/-- Instance record built by `new_aubio_fft` (fft.c:79-86): window size,
`fft_size = winsize/2 + 1` (complex build), and the two plan handles.  A plan
handle is modelled as `Option Unit`: `none` is a NULL plan returned by a
rejecting planner. -/
structure AubioFFT where
  winsize : ℕ
  fft_size : ℕ
  pfw : Option Unit
  pbw : Option Unit
deriving DecidableEq

/-- Translated from `new_aubio_fft` (fft.c:88-118), parameterized by the
engine's planner.  The function performs no error checking whatsoever: it
stores whatever the planner returns and returns the instance unconditionally
(`some` models the non-NULL pointer the C function always returns; `none`
would model signalling a construction failure, which never happens). -/
def new_aubio_fft (planner : ℕ → Option Unit) (winsize : ℕ) : Option AubioFFT :=
  some { winsize := winsize, fft_size := winsize / 2 + 1,
         pfw := planner winsize, pbw := planner winsize }

/-- Modelled from the spec: a planner that rejects window size 0 and accepts
every other size. -/
def rejectZeroPlanner : ℕ → Option Unit := fun w => if w = 0 then none else some ()

/-- Kinds of engine and mutex calls issued by construction/destruction. -/
inductive FFTCall where
  | lock
  | unlock
  | createPlan
  | destroyPlan
  | alloc
  | free
deriving DecidableEq

/-- Call sequence of `del_aubio_fft` (fft.c:120-129): `del_fvec(compspec)`,
`fftw_destroy_plan(pfw)`, `fftw_destroy_plan(pbw)`, `fftw_free(specdata)`,
`AUBIO_FREE(out)`, `AUBIO_FREE(in)`, `AUBIO_FREE(s)`.  No mutex operation
appears anywhere in the function. -/
def del_aubio_fft_calls : List FFTCall :=
  [FFTCall.free, FFTCall.destroyPlan, FFTCall.destroyPlan,
   FFTCall.free, FFTCall.free, FFTCall.free, FFTCall.free]

/-- Call sequence of `new_aubio_fft` (fft.c:88-118): three allocations, then
`pthread_mutex_lock(&aubio_fftw_mutex)`, `fftw_malloc`, two plan creations,
`pthread_mutex_unlock(&aubio_fftw_mutex)`. -/
def new_aubio_fft_calls : List FFTCall :=
  [FFTCall.alloc, FFTCall.alloc, FFTCall.alloc, FFTCall.lock,
   FFTCall.alloc, FFTCall.createPlan, FFTCall.createPlan, FFTCall.unlock]

/-- The global planning mutex `aubio_fftw_mutex` is held just before the call
at position `i` of a call trace when strictly more `lock` than `unlock`
operations precede it. -/
@[reducible] def mutexHeldAt (tr : List FFTCall) (i : ℕ) : Prop :=
  (tr.take i).count FFTCall.unlock < (tr.take i).count FFTCall.lock

/-- Concrete length-3 frame, the unit impulse at index 1. -/
def f3 : ℕ → ℝ := fun i => if i = 1 then 1 else 0

/-- Concrete length-2 frame, the unit impulse at index 0. -/
def f2 : ℕ → ℝ := fun i => if i = 0 then 1 else 0

/-- Concrete polar spectrum used as a witness input. -/
def specW : Cvec := { norm := fun _ => 2, phas := fun _ => 0 }

/-- Concrete packed scratch vector used as a witness input. -/
def cW : ℕ → ℝ := fun _ => 5

/-- Concrete nonzero scratch state used as a witness input. -/
def fftScratchOne : FFTScratch :=
  { inb := fun _ => 1, outb := fun _ => 1, specdata := fun _ => 1, compspec := fun _ => 1 }

/-- Every complex number satisfies `|z| * cos (arg z) = z.re`. -/
lemma abs_mul_cos_arg (z : ℂ) : Complex.abs z * Real.cos (Complex.arg z) = z.re :=
  Complex.abs_mul_cos_arg z

/-- Every complex number satisfies `|z| * sin (arg z) = z.im`. -/
lemma abs_mul_sin_arg (z : ℂ) : Complex.abs z * Real.sin (Complex.arg z) = z.im :=
  Complex.abs_mul_sin_arg z

/-- The norm formula of `aubio_fft_get_norm` is the complex modulus. -/
lemma sqrt_mul_self_add_mul_self (x y : ℝ) :
    Real.sqrt (x * x + y * y) = Complex.abs ⟨x, y⟩ := by
  rw [Complex.abs_apply, Complex.normSq_mk]

lemma get_spectrum_norm (N : ℕ) (c : ℕ → ℝ) :
    (aubio_fft_get_spectrum N c).norm = aubio_fft_get_norm N c := rfl

lemma get_spectrum_phas (N : ℕ) (c : ℕ → ℝ) :
    (aubio_fft_get_spectrum N c).phas = aubio_fft_get_phas N c := rfl

lemma get_phas_zero (N : ℕ) (c : ℕ → ℝ) :
    aubio_fft_get_phas N c 0 = if c 0 < 0 then Real.pi else 0 := by
  unfold aubio_fft_get_phas
  rw [if_pos rfl]

lemma get_phas_interior (N : ℕ) (c : ℕ → ℝ) (j : ℕ) (h1 : j ≠ 0) (h2 : j < N / 2) :
    aubio_fft_get_phas N c j = ATAN2 (c (N - j)) (c j) := by
  unfold aubio_fft_get_phas
  rw [if_neg h1, if_pos h2]

lemma get_phas_last (N : ℕ) (c : ℕ → ℝ) (h0 : N / 2 ≠ 0) :
    aubio_fft_get_phas N c (N / 2) = if c (N / 2) < 0 then Real.pi else 0 := by
  unfold aubio_fft_get_phas
  rw [if_neg h0, if_neg (lt_irrefl _), if_pos rfl]

lemma get_norm_zero (N : ℕ) (c : ℕ → ℝ) : aubio_fft_get_norm N c 0 = |c 0| := by
  unfold aubio_fft_get_norm
  rw [if_pos rfl]

lemma get_norm_interior (N : ℕ) (c : ℕ → ℝ) (j : ℕ) (h1 : j ≠ 0) (h2 : j < N / 2) :
    aubio_fft_get_norm N c j = Real.sqrt (c j * c j + c (N - j) * c (N - j)) := by
  unfold aubio_fft_get_norm
  rw [if_neg h1, if_pos h2]

lemma get_norm_last (N : ℕ) (c : ℕ → ℝ) (h0 : N / 2 ≠ 0) :
    aubio_fft_get_norm N c (N / 2) = |c (N / 2)| := by
  unfold aubio_fft_get_norm
  rw [if_neg h0, if_neg (lt_irrefl _), if_pos rfl]

/-- Reconstruction of a purely real bin from its sign-encoded phase. -/
lemma abs_mul_cos_sign (x : ℝ) : |x| * Real.cos (if x < 0 then Real.pi else 0) = x := by
  by_cases hc : x < 0
  · rw [if_pos hc, Real.cos_pi, abs_of_neg hc]
    ring
  · rw [if_neg hc, Real.cos_zero, mul_one, abs_of_nonneg (not_lt.mp hc)]

/-- Real-slot reconstruction: for every spectrum index `i ≤ N/2`,
`norm[i] * cos(phas[i])` recovers the packed real part `compspec[i]`. -/
lemma get_real_reconstruct (N : ℕ) (c : ℕ → ℝ) (i : ℕ) (hi : i ≤ N / 2) :
    aubio_fft_get_norm N c i * Real.cos (aubio_fft_get_phas N c i) = c i := by
  rcases eq_or_ne i 0 with h0 | h0
  · subst h0
    rw [get_norm_zero, get_phas_zero, abs_mul_cos_sign]
  · rcases lt_or_ge i (N / 2) with hlt | hge
    · rw [get_norm_interior N c i h0 hlt, get_phas_interior N c i h0 hlt,
        sqrt_mul_self_add_mul_self]
      exact abs_mul_cos_arg ⟨c i, c (N - i)⟩
    · have hieq : i = N / 2 := le_antisymm hi hge
      subst hieq
      rw [get_norm_last N c h0, get_phas_last N c h0, abs_mul_cos_sign]

/-- Imaginary-slot reconstruction: for every interior bin `1 ≤ j < N/2`,
`norm[j] * sin(phas[j])` recovers the packed imaginary part `compspec[N-j]`. -/
lemma get_imag_reconstruct (N : ℕ) (c : ℕ → ℝ) (j : ℕ) (h1 : 1 ≤ j) (h2 : j < N / 2) :
    aubio_fft_get_norm N c j * Real.sin (aubio_fft_get_phas N c j) = c (N - j) := by
  rw [get_norm_interior N c j (by omega) h2, get_phas_interior N c j (by omega) h2,
    sqrt_mul_self_add_mul_self]
  exact abs_mul_sin_arg ⟨c j, c (N - j)⟩

/-- Packed-to-polar-to-packed identity: for an even packed length `N`,
converting `compspec` to a polar spectrum and back rewrites every entry of
the destination buffer (whatever it held) with the original value. -/
lemma realimag_spectrum_id (N : ℕ) (hE : Even N) (c c2 : ℕ → ℝ) (i : ℕ) (hi : i < N) :
    aubio_fft_get_realimag N (aubio_fft_get_spectrum N c) c2 i = c i := by
  have hmod : N % 2 = 0 := Nat.even_iff.mp hE
  by_cases hreal : i < N / 2 + 1
  · simp only [aubio_fft_get_realimag, aubio_fft_get_real, if_pos hreal,
      get_spectrum_norm, get_spectrum_phas]
    exact get_real_reconstruct N c i (by omega)
  · have h1 : 1 ≤ N - i := by omega
    have h2 : N - i < (N + 1) / 2 := by omega
    have h3 : N - (N - i) = i := by omega
    simp only [aubio_fft_get_realimag, aubio_fft_get_real, if_neg hreal,
      aubio_fft_get_imag, if_pos (And.intro h1 h2), get_spectrum_norm, get_spectrum_phas]
    rw [get_imag_reconstruct N c (N - i) h1 (by omega), h3]

/-- The complex exponential of `2πi·d/N` is not `1` when `0 < |d| < N`. -/
lemma exp_two_pi_div_ne_one (N : ℕ) (hN : 0 < N) (d : ℤ) (hd1 : d ≠ 0)
    (hd2 : d.natAbs < N) :
    Complex.exp (2 * (Real.pi : ℂ) * Complex.I * d / N) ≠ 1 := by
  intro h
  rw [Complex.exp_eq_one_iff] at h
  obtain ⟨t, ht⟩ := h
  have hNc : (N : ℂ) ≠ 0 := Nat.cast_ne_zero.mpr hN.ne'
  have hpi : (Real.pi : ℂ) ≠ 0 := Complex.ofReal_ne_zero.mpr Real.pi_ne_zero
  have h2 : (2 * (Real.pi : ℂ) * Complex.I) * (d : ℂ)
      = (2 * (Real.pi : ℂ) * Complex.I) * ((t : ℂ) * (N : ℂ)) := by
    field_simp at ht
    linear_combination ht
  have hne : (2 * (Real.pi : ℂ) * Complex.I) ≠ 0 :=
    mul_ne_zero (mul_ne_zero two_ne_zero hpi) Complex.I_ne_zero
  have h3 : (d : ℂ) = (t : ℂ) * (N : ℂ) := mul_left_cancel₀ hne h2
  have h4 : d = t * (N : ℤ) := by exact_mod_cast h3
  have ht0 : t ≠ 0 := by
    rintro rfl
    rw [zero_mul] at h4
    exact hd1 h4
  have habs : d.natAbs = t.natAbs * N := by
    rw [h4, Int.natAbs_mul, Int.natAbs_ofNat]
  have h6 : 1 ≤ t.natAbs := Int.natAbs_pos.mpr ht0
  have h7 : N ≤ d.natAbs := by
    rw [habs]
    calc N = 1 * N := (one_mul N).symm
    _ ≤ t.natAbs * N := Nat.mul_le_mul_right N h6
  omega

/-- Orthogonality row sum: `∑_{k<N} e^{2πik(n-m)/N}` is `N` on the diagonal
and `0` off it. -/
lemma sum_exp_row (N : ℕ) (hN : 0 < N) (m n : ℕ) (hm : m < N) (hn : n < N) :
    ∑ k ∈ Finset.range N,
      Complex.exp (2 * (Real.pi : ℂ) * Complex.I * k * ((n : ℂ) - (m : ℂ)) / N)
      = if n = m then (N : ℂ) else 0 := by
  rcases eq_or_ne n m with he | he
  · subst he
    rw [if_pos rfl]
    have hone : ∀ k ∈ Finset.range N,
        Complex.exp (2 * (Real.pi : ℂ) * Complex.I * k * ((n : ℂ) - (n : ℂ)) / N) = 1 := by
      intro k _
      rw [sub_self, mul_zero, zero_div, Complex.exp_zero]
    rw [Finset.sum_congr rfl hone]
    simp
  · rw [if_neg he]
    have hterm : ∀ k : ℕ,
        Complex.exp (2 * (Real.pi : ℂ) * Complex.I * k * ((n : ℂ) - (m : ℂ)) / N)
        = Complex.exp (2 * (Real.pi : ℂ) * Complex.I * ((n : ℂ) - (m : ℂ)) / N) ^ k := by
      intro k
      rw [← Complex.exp_nat_mul]
      congr 1
      ring
    rw [Finset.sum_congr rfl (fun k _ => hterm k)]
    have hd : ((n : ℂ) - (m : ℂ)) = ((n - m : ℤ) : ℂ) := by
      push_cast
      ring
    have hr1 : Complex.exp (2 * (Real.pi : ℂ) * Complex.I * ((n : ℂ) - (m : ℂ)) / N) ≠ 1 := by
      rw [hd]
      refine exp_two_pi_div_ne_one N hN ((n : ℤ) - (m : ℤ)) ?_ (by omega)

      have : (n : ℤ) ≠ (m : ℤ) := by exact_mod_cast he
      omega
    rw [geom_sum_eq hr1]
    have hNc : (N : ℂ) ≠ 0 := Nat.cast_ne_zero.mpr hN.ne'
    have hrN : Complex.exp (2 * (Real.pi : ℂ) * Complex.I * ((n : ℂ) - (m : ℂ)) / N) ^ N = 1 := by
      rw [← Complex.exp_nat_mul]
      have harg : (N : ℂ) * (2 * (Real.pi : ℂ) * Complex.I * ((n : ℂ) - (m : ℂ)) / N)
          = ((n - m : ℤ) : ℂ) * (2 * (Real.pi : ℂ) * Complex.I) := by
        push_cast
        field_simp
        ring
      rw [harg, Complex.exp_int_mul_two_pi_mul_I]
    rw [hrN, sub_self, zero_div]

/-- Fourier inversion: summing the DFT bins against the inverse characters
recovers `N` times the sample. -/
lemma dft_mul_exp_sum (N : ℕ) (hN : 0 < N) (x : ℕ → ℝ) (n : ℕ) (hn : n < N) :
    ∑ k ∈ Finset.range N, dft N x k * Complex.exp (2 * (Real.pi : ℂ) * Complex.I * k * n / N)
      = (N : ℂ) * (x n : ℂ) := by
  have h1 : ∀ k ∈ Finset.range N,
      dft N x k * Complex.exp (2 * (Real.pi : ℂ) * Complex.I * k * n / N)
      = ∑ m ∈ Finset.range N,
          (x m : ℂ) * Complex.exp (2 * (Real.pi : ℂ) * Complex.I * k * ((n : ℂ) - (m : ℂ)) / N) := by
    intro k _
    unfold dft
    rw [Finset.sum_mul]
    refine Finset.sum_congr rfl (fun m _ => ?_)
    have hexp : -(2 * (Real.pi : ℂ) * Complex.I * k * m) / N
        + 2 * (Real.pi : ℂ) * Complex.I * k * n / N
        = 2 * (Real.pi : ℂ) * Complex.I * k * ((n : ℂ) - (m : ℂ)) / N := by
      ring
    rw [mul_assoc, ← Complex.exp_add, hexp]
  rw [Finset.sum_congr rfl h1, Finset.sum_comm]
  have h2 : ∀ m ∈ Finset.range N,
      ∑ k ∈ Finset.range N,
          (x m : ℂ) * Complex.exp (2 * (Real.pi : ℂ) * Complex.I * k * ((n : ℂ) - (m : ℂ)) / N)
      = if n = m then (x m : ℂ) * (N : ℂ) else 0 := by
    intro m hm
    rw [← Finset.mul_sum, sum_exp_row N hN m n (Finset.mem_range.mp hm) hn, mul_ite, mul_zero]
  rw [Finset.sum_congr rfl h2,
    Finset.sum_ite_eq (Finset.range N) n (fun m => (x m : ℂ) * (N : ℂ)),
    if_pos (Finset.mem_range.mpr hn)]
  ring

/-- The DFT depends only on the first `N` samples of its input. -/
lemma dft_congr (N : ℕ) (x y : ℕ → ℝ) (h : ∀ m, m < N → x m = y m) (k : ℕ) :
    dft N x k = dft N y k := by
  unfold dft
  exact Finset.sum_congr rfl (fun m hm => by rw [h m (Finset.mem_range.mp hm)])

/-- Conjugate symmetry of the DFT of a real signal: bin `N-j` is the
conjugate of bin `j`. -/
lemma dft_conj_symm (N : ℕ) (hN : 0 < N) (x : ℕ → ℝ) (j : ℕ) (hj : j ≤ N) :
    dft N x (N - j) = (starRingEnd ℂ) (dft N x j) := by
  unfold dft
  rw [map_sum]
  refine Finset.sum_congr rfl (fun m hm => ?_)
  have hNc : (N : ℂ) ≠ 0 := Nat.cast_ne_zero.mpr hN.ne'
  have hc : (starRingEnd ℂ) ((x m : ℂ) * Complex.exp (-(2 * (Real.pi : ℂ) * Complex.I * j * m) / N))
      = (x m : ℂ) * Complex.exp (2 * (Real.pi : ℂ) * Complex.I * j * m / N) := by
    rw [map_mul, Complex.conj_ofReal, ← Complex.exp_conj]
    congr 1
    simp only [map_div₀, map_neg, map_mul, Complex.conj_I, Complex.conj_ofReal,
      map_ofNat, map_natCast]
    ring_nf
  rw [hc]
  have hsplit : -(2 * (Real.pi : ℂ) * Complex.I * ((N : ℂ) - (j : ℂ)) * m) / N
      = -(m : ℂ) * (2 * (Real.pi : ℂ) * Complex.I)
        + 2 * (Real.pi : ℂ) * Complex.I * j * m / N := by
    field_simp
    ring
  have hone : Complex.exp (-(m : ℂ) * (2 * (Real.pi : ℂ) * Complex.I)) = 1 := by
    have h1 := Complex.exp_int_mul_two_pi_mul_I (-(m : ℤ))
    push_cast at h1
    exact h1
  rw [Nat.cast_sub hj, hsplit, Complex.exp_add, hone, one_mul]

/-- Bin 0 of any real DFT is purely real. -/
lemma dft_zero_im (N : ℕ) (x : ℕ → ℝ) : (dft N x 0).im = 0 := by
  unfold dft
  rw [Complex.im_sum]
  refine Finset.sum_eq_zero (fun m hm => ?_)
  simp

/-- For even length, the Nyquist bin `N/2` of any real DFT is purely real. -/
lemma dft_half_im (N : ℕ) (hE : Even N) (hN : 0 < N) (x : ℕ → ℝ) :
    (dft N x (N / 2)).im = 0 := by
  unfold dft
  rw [Complex.im_sum]
  refine Finset.sum_eq_zero (fun m hm => ?_)
  have hNc : (N : ℂ) ≠ 0 := Nat.cast_ne_zero.mpr hN.ne'
  have h2 : ((N / 2 : ℕ) : ℂ) * 2 = (N : ℂ) := by
    have h := Nat.div_mul_cancel (even_iff_two_dvd.mp hE)
    exact_mod_cast h
  have hexp : -(2 * (Real.pi : ℂ) * Complex.I * ((N / 2 : ℕ) : ℂ) * m) / N
      = (m : ℂ) * (-(Real.pi : ℂ) * Complex.I) := by
    field_simp
    linear_combination (Real.pi : ℂ) * Complex.I * (m : ℂ) * h2
  rw [hexp, Complex.exp_nat_mul]
  have hmone : Complex.exp (-(Real.pi : ℂ) * Complex.I) = -1 := by
    rw [neg_mul, Complex.exp_neg, Complex.exp_pi_mul_I]
    norm_num
  rw [hmone]
  have hcast : ((-1 : ℂ)) ^ m = (((-1 : ℝ) ^ m : ℝ) : ℂ) := by
    push_cast
    ring
  rw [hcast, ← Complex.ofReal_mul, Complex.ofReal_im]

/-- The inverse transform reads only spectrum bins `0..N/2`. -/
lemma idft_congr (N : ℕ) (s t : ℕ → ℂ) (h : ∀ k, k ≤ N / 2 → s k = t k) (n : ℕ) :
    idft N s n = idft N t n := by
  unfold idft
  congr 1
  refine Finset.sum_congr rfl (fun k hk => ?_)
  unfold hermext
  by_cases hk2 : k ≤ N / 2
  · simp only [if_pos hk2]
    rw [h k hk2]
  · simp only [if_neg hk2]
    rw [h (N - k) (by omega)]

/-- Real slots written by the forward unpacking: indices `0..N/2` of the
packed vector hold the real parts of the engine bins, unscaled. -/
lemma do_complex_compspec_low (N : ℕ) (st : FFTScratch) (input : ℕ → ℝ) (i : ℕ)
    (hi : i ≤ N / 2) :
    (aubio_fft_do_complex N st input).compspec i = (dft N input i).re := by
  simp only [aubio_fft_do_complex]
  rw [if_pos hi, if_pos (by omega : i < N / 2 + 1)]
  congr 1
  exact dft_congr N _ input (fun m hm => if_pos hm) i

/-- Imaginary slots written by the forward unpacking: index `i` with
`1 ≤ N-i < N/2` holds the imaginary part of engine bin `N-i`, unscaled. -/
lemma do_complex_compspec_high (N : ℕ) (st : FFTScratch) (input : ℕ → ℝ) (i : ℕ)
    (h1 : 1 ≤ N - i) (h2 : N - i < N / 2) (h3 : N / 2 < i) :
    (aubio_fft_do_complex N st input).compspec i = (dft N input (N - i)).im := by
  simp only [aubio_fft_do_complex]
  rw [if_neg (by omega), if_pos (And.intro h1 h2), if_pos (by omega : N - i < N / 2 + 1)]
  congr 1
  exact dft_congr N _ input (fun m hm => if_pos hm) (N - i)

/-- Slots not written by the forward unpacking keep their previous value. -/
lemma do_complex_compspec_stale (N : ℕ) (st : FFTScratch) (input : ℕ → ℝ) (i : ℕ)
    (h1 : ¬ i ≤ N / 2) (h2 : ¬ (1 ≤ N - i ∧ N - i < N / 2)) :
    (aubio_fft_do_complex N st input).compspec i = st.compspec i := by
  simp only [aubio_fft_do_complex]
  rw [if_neg h1, if_neg h2]

lemma rdo_specdata_zero (N : ℕ) (s : FFTScratch) (c : ℕ → ℝ) :
    (aubio_fft_rdo_complex N s c).1.specdata 0 = (c 0 : ℂ) := by
  simp only [aubio_fft_rdo_complex]
  simp

lemma rdo_specdata_mid (N : ℕ) (s : FFTScratch) (c : ℕ → ℝ) (k : ℕ)
    (h0 : k ≠ 0) (h1 : k < N / 2) :
    (aubio_fft_rdo_complex N s c).1.specdata k
      = (c k : ℂ) + Complex.I * (c (N - k) : ℂ) := by
  simp only [aubio_fft_rdo_complex]
  rw [if_neg h0, if_pos h1]

lemma rdo_specdata_half (N : ℕ) (s : FFTScratch) (c : ℕ → ℝ) (h0 : N / 2 ≠ 0) :
    (aubio_fft_rdo_complex N s c).1.specdata (N / 2) = (c (N / 2) : ℂ) := by
  simp only [aubio_fft_rdo_complex]
  rw [if_neg h0, if_neg (lt_irrefl _)]
  simp

/-- The inverse output frame is the engine's unnormalized inverse output
scaled by `1/N`, sample by sample. -/
lemma rdo_complex_output (N : ℕ) (s : FFTScratch) (c : ℕ → ℝ) (m : ℕ) (hm : m < N) :
    (aubio_fft_rdo_complex N s c).2 m
      = idft N (aubio_fft_rdo_complex N s c).1.specdata m * (1 / (N : ℝ)) := by
  simp only [aubio_fft_rdo_complex]
  rw [if_pos hm]

/-- Round trip for even window sizes: with the engine modelled as the exact
DFT, `aubio_fft_rdo` applied to the spectrum produced by `aubio_fft_do`
reproduces the input frame exactly, from any prior scratch state. -/
lemma roundtrip_even (N : ℕ) (hE : Even N) (hN : 0 < N) (st : FFTScratch) (input : ℕ → ℝ)
    (n : ℕ) (hn : n < N) :
    (aubio_fft_rdo N (aubio_fft_do N st input).1 (aubio_fft_do N st input).2).2 n = input n := by
  have hmod : N % 2 = 0 := Nat.even_iff.mp hE
  set st2 := aubio_fft_do_complex N st input with hst2
  set cs2 := aubio_fft_get_realimag N (aubio_fft_get_spectrum N st2.compspec) st2.compspec
    with hcs2
  have hrdo : (aubio_fft_rdo N (aubio_fft_do N st input).1 (aubio_fft_do N st input).2).2
      = (aubio_fft_rdo_complex N { st2 with compspec := cs2 } cs2).2 := rfl
  rw [hrdo, rdo_complex_output N _ cs2 n hn]
  have hrec : ∀ i, i < N → cs2 i = st2.compspec i := fun i hi =>
    realimag_spectrum_id N hE st2.compspec st2.compspec i hi
  have hlow : ∀ i, i ≤ N / 2 → st2.compspec i = (dft N input i).re := fun i hi => by
    rw [hst2]
    exact do_complex_compspec_low N st input i hi
  have hhigh : ∀ i, N / 2 < i → i < N → st2.compspec i = (dft N input (N - i)).im :=
    fun i h1 h2 => by
      rw [hst2]
      exact do_complex_compspec_high N st input i (by omega) (by omega) h1
  have hsd : ∀ k, k ≤ N / 2 →
      (aubio_fft_rdo_complex N { st2 with compspec := cs2 } cs2).1.specdata k
      = dft N input k := by
    intro k hk
    rcases eq_or_ne k 0 with rfl | hk0
    · rw [rdo_specdata_zero, hrec 0 hN, hlow 0 (by omega)]
      apply Complex.ext
      · simp
      · simp [dft_zero_im]
    · rcases lt_or_ge k (N / 2) with hklt | hkge
      · rw [rdo_specdata_mid N _ cs2 k hk0 hklt, hrec k (by omega), hrec (N - k) (by omega),
          hlow k (by omega), hhigh (N - k) (by omega) (by omega)]
        have hNNk : N - (N - k) = k := by omega
        rw [hNNk, mul_comm, Complex.re_add_im]
      · have hkeq : k = N / 2 := le_antisymm hk hkge
        subst hkeq
        rw [rdo_specdata_half N _ cs2 (by omega), hrec (N / 2) (by omega), hlow (N / 2) le_rfl]
        apply Complex.ext
        · simp
        · simp [dft_half_im N hE hN input]
  have hherm : ∀ k, k < N →
      hermext N (aubio_fft_rdo_complex N { st2 with compspec := cs2 } cs2).1.specdata k
      = dft N input k := by
    intro k hk
    unfold hermext
    by_cases hk2 : k ≤ N / 2
    · rw [if_pos hk2, hsd k hk2]
    · rw [if_neg hk2, hsd (N - k) (by omega)]
      have h1 : N - (N - k) = k := by omega
      have h2 := dft_conj_symm N hN input (N - k) (by omega)
      rw [h1] at h2
      exact h2.symm
  have hout : idft N (aubio_fft_rdo_complex N { st2 with compspec := cs2 } cs2).1.specdata n
      = (N : ℝ) * input n := by
    unfold idft
    rw [Finset.sum_congr rfl (fun k hk => by rw [hherm k (Finset.mem_range.mp hk)]),
      dft_mul_exp_sum N hN input n hn,
      show ((N : ℂ) * ((input n : ℝ) : ℂ)) = (((N : ℝ) * input n : ℝ) : ℂ) by push_cast; ring]
    exact Complex.ofReal_re _
  rw [hout]
  have hNr : (N : ℝ) ≠ 0 := Nat.cast_ne_zero.mpr hN.ne'
  field_simp

/-- The DFT of the length-3 impulse-at-1 frame at bin 0 is 1. -/
lemma dft3_f3_zero : dft 3 f3 0 = 1 := by
  simp only [dft, f3]
  rw [Finset.sum_range_succ, Finset.sum_range_succ, Finset.sum_range_succ, Finset.sum_range_zero]
  norm_num [Complex.exp_zero]

/-- The DFT of the length-3 impulse-at-1 frame at bin 1 is `e^{-2πi/3}`. -/
lemma dft3_f3_one : dft 3 f3 1 = Complex.exp (((-(2 * Real.pi / 3) : ℝ)) * Complex.I) := by
  simp only [dft, f3]
  rw [Finset.sum_range_succ, Finset.sum_range_succ, Finset.sum_range_succ, Finset.sum_range_zero]
  norm_num
  congr 1
  ring

/-- Real part of bin 1 of that DFT: `cos(2π/3) = -1/2`. -/
lemma dft3_f3_one_re : (dft 3 f3 1).re = -(1 / 2) := by
  rw [dft3_f3_one, Complex.exp_ofReal_mul_I_re, Real.cos_neg,
    show (2 * Real.pi / 3 : ℝ) = Real.pi - Real.pi / 3 by ring,
    Real.cos_pi_sub, Real.cos_pi_div_three]

/-- Packed vector produced by the forward transform at `N = 3` on the
impulse-at-1 frame: `(1, -1/2, stale 0)`. -/
lemma cs3_vals :
    (aubio_fft_do_complex 3 fftScratchZero f3).compspec 0 = 1 ∧
    (aubio_fft_do_complex 3 fftScratchZero f3).compspec 1 = -(1 / 2) ∧
    (aubio_fft_do_complex 3 fftScratchZero f3).compspec 2 = 0 := by
  refine ⟨?_, ?_, ?_⟩
  · rw [do_complex_compspec_low 3 fftScratchZero f3 0 (by norm_num), dft3_f3_zero]
    simp
  · rw [do_complex_compspec_low 3 fftScratchZero f3 1 (by norm_num), dft3_f3_one_re]
  · rw [do_complex_compspec_stale 3 fftScratchZero f3 2 (by norm_num) (by decide)]
    rfl

/-- Spectrum produced by the forward transform at `N = 3` on the impulse
frame: `norm = (1, 1/2)`, `phas = (0, π)` — the nonzero imaginary part of
bin 1 has been lost, because bin 1 is treated as the trailing real bin. -/
lemma spec3_vals :
    aubio_fft_get_norm 3 (aubio_fft_do_complex 3 fftScratchZero f3).compspec 0 = 1 ∧
    aubio_fft_get_phas 3 (aubio_fft_do_complex 3 fftScratchZero f3).compspec 0 = 0 ∧
    aubio_fft_get_norm 3 (aubio_fft_do_complex 3 fftScratchZero f3).compspec 1 = 1 / 2 ∧
    aubio_fft_get_phas 3 (aubio_fft_do_complex 3 fftScratchZero f3).compspec 1 = Real.pi := by
  obtain ⟨h0, h1, h2⟩ := cs3_vals
  refine ⟨?_, ?_, ?_, ?_⟩
  · rw [get_norm_zero, h0]
    norm_num
  · rw [get_phas_zero, h0, if_neg (by norm_num)]
  · have h := get_norm_last 3 (aubio_fft_do_complex 3 fftScratchZero f3).compspec (by norm_num)
    norm_num at h
    rw [h, h1]
    rw [abs_of_neg (by norm_num)]
    norm_num
  · have h := get_phas_last 3 (aubio_fft_do_complex 3 fftScratchZero f3).compspec (by norm_num)
    norm_num at h
    rw [h, h1, if_pos (by norm_num)]

/-- Rebuilt packed vector on the inverse path at `N = 3`: `(1, -1/2, 0)`. -/
lemma cc3_vals :
    aubio_fft_get_realimag 3
      (aubio_fft_get_spectrum 3 (aubio_fft_do_complex 3 fftScratchZero f3).compspec)
      (aubio_fft_do_complex 3 fftScratchZero f3).compspec 0 = 1 ∧
    aubio_fft_get_realimag 3
      (aubio_fft_get_spectrum 3 (aubio_fft_do_complex 3 fftScratchZero f3).compspec)
      (aubio_fft_do_complex 3 fftScratchZero f3).compspec 1 = -(1 / 2) ∧
    aubio_fft_get_realimag 3
      (aubio_fft_get_spectrum 3 (aubio_fft_do_complex 3 fftScratchZero f3).compspec)
      (aubio_fft_do_complex 3 fftScratchZero f3).compspec 2 = 0 := by
  obtain ⟨hn0, hp0, hn1, hp1⟩ := spec3_vals
  refine ⟨?_, ?_, ?_⟩
  · simp only [aubio_fft_get_realimag, aubio_fft_get_real, get_spectrum_norm, get_spectrum_phas]
    rw [if_pos (by norm_num), hn0, hp0, Real.cos_zero]
    norm_num
  · simp only [aubio_fft_get_realimag, aubio_fft_get_real, get_spectrum_norm, get_spectrum_phas]
    rw [if_pos (by norm_num), hn1, hp1, Real.cos_pi]
    norm_num
  · simp only [aubio_fft_get_realimag, aubio_fft_get_real, aubio_fft_get_imag,
      get_spectrum_norm, get_spectrum_phas]
    rw [if_neg (by norm_num), if_pos (by decide)]
    norm_num
    exact Or.inr (by rw [hp1]; exact Real.sin_pi)

/-- The primitive cube root of unity facts: `e = e^{2πi/3}` satisfies
`1 + e + e² = 0`. -/
lemma cube_root_sum :
    1 + Complex.exp (2 * (Real.pi : ℂ) * Complex.I / 3)
      + Complex.exp (2 * (Real.pi : ℂ) * Complex.I / 3) ^ 2 = 0 := by
  have he3 : Complex.exp (2 * (Real.pi : ℂ) * Complex.I / 3) ^ 3 = 1 := by
    rw [← Complex.exp_nat_mul]
    rw [show ((3 : ℕ) : ℂ) * (2 * (Real.pi : ℂ) * Complex.I / 3)
        = ((1 : ℤ) : ℂ) * (2 * (Real.pi : ℂ) * Complex.I) by push_cast; ring]
    exact Complex.exp_int_mul_two_pi_mul_I 1
  have hne : Complex.exp (2 * (Real.pi : ℂ) * Complex.I / 3) ≠ 1 := by
    have h := exp_two_pi_div_ne_one 3 (by norm_num) 1 (by norm_num) (by norm_num)
    intro hcon
    apply h
    rw [← hcon]
    congr 1
    push_cast
    ring
  have hfac : (Complex.exp (2 * (Real.pi : ℂ) * Complex.I / 3) - 1)
      * (1 + Complex.exp (2 * (Real.pi : ℂ) * Complex.I / 3)
          + Complex.exp (2 * (Real.pi : ℂ) * Complex.I / 3) ^ 2)
      = Complex.exp (2 * (Real.pi : ℂ) * Complex.I / 3) ^ 3 - 1 := by
    ring
  rw [he3, sub_self] at hfac
  rcases mul_eq_zero.mp hfac with h | h
  · exact absurd (sub_eq_zero.mp h) hne
  · exact h

/-- Engine output of the inverse path at `N = 3`, sample 1: the loaded
spectrum `(1, -1/2)` hermitian-extends to `(1, -1/2, -1/2)` and the
unnormalized inverse gives `3/2` instead of `3·f3 1 = 3`. -/
lemma idft3_val :
    idft 3
      (aubio_fft_rdo_complex 3
        { aubio_fft_do_complex 3 fftScratchZero f3 with
            compspec := aubio_fft_get_realimag 3
              (aubio_fft_get_spectrum 3 (aubio_fft_do_complex 3 fftScratchZero f3).compspec)
              (aubio_fft_do_complex 3 fftScratchZero f3).compspec }
        (aubio_fft_get_realimag 3
          (aubio_fft_get_spectrum 3 (aubio_fft_do_complex 3 fftScratchZero f3).compspec)
          (aubio_fft_do_complex 3 fftScratchZero f3).compspec)).1.specdata 1 = 3 / 2 := by
  obtain ⟨hc0, hc1, hc2⟩ := cc3_vals
  have hsd0 : (aubio_fft_rdo_complex 3
      { aubio_fft_do_complex 3 fftScratchZero f3 with
          compspec := aubio_fft_get_realimag 3
            (aubio_fft_get_spectrum 3 (aubio_fft_do_complex 3 fftScratchZero f3).compspec)
            (aubio_fft_do_complex 3 fftScratchZero f3).compspec }
      (aubio_fft_get_realimag 3
        (aubio_fft_get_spectrum 3 (aubio_fft_do_complex 3 fftScratchZero f3).compspec)
        (aubio_fft_do_complex 3 fftScratchZero f3).compspec)).1.specdata 0 = 1 := by
    rw [rdo_specdata_zero, hc0]
    norm_num
  have hsd1 : (aubio_fft_rdo_complex 3
      { aubio_fft_do_complex 3 fftScratchZero f3 with
          compspec := aubio_fft_get_realimag 3
            (aubio_fft_get_spectrum 3 (aubio_fft_do_complex 3 fftScratchZero f3).compspec)
            (aubio_fft_do_complex 3 fftScratchZero f3).compspec }
      (aubio_fft_get_realimag 3
        (aubio_fft_get_spectrum 3 (aubio_fft_do_complex 3 fftScratchZero f3).compspec)
        (aubio_fft_do_complex 3 fftScratchZero f3).compspec)).1.specdata 1 = -(1 / 2 : ℂ) := by
    have h := rdo_specdata_half 3
      { aubio_fft_do_complex 3 fftScratchZero f3 with
          compspec := aubio_fft_get_realimag 3
            (aubio_fft_get_spectrum 3 (aubio_fft_do_complex 3 fftScratchZero f3).compspec)
            (aubio_fft_do_complex 3 fftScratchZero f3).compspec }
      (aubio_fft_get_realimag 3
        (aubio_fft_get_spectrum 3 (aubio_fft_do_complex 3 fftScratchZero f3).compspec)
        (aubio_fft_do_complex 3 fftScratchZero f3).compspec) (by norm_num)
    norm_num at h
    rw [h, hc1]
    push_cast
    ring
  unfold idft
  rw [Finset.sum_range_succ, Finset.sum_range_succ, Finset.sum_range_succ, Finset.sum_range_zero]
  have hh0 : ∀ sd : ℕ → ℂ, sd 0 = 1 → hermext 3 sd 0 = 1 := by
    intro sd h
    unfold hermext
    rw [if_pos (by norm_num), h]
  have hh1 : ∀ sd : ℕ → ℂ, sd 1 = -(1 / 2 : ℂ) → hermext 3 sd 1 = -(1 / 2 : ℂ) := by
    intro sd h
    unfold hermext
    rw [if_pos (by norm_num), h]
  have hh2 : ∀ sd : ℕ → ℂ, sd 1 = -(1 / 2 : ℂ) → hermext 3 sd 2 = -(1 / 2 : ℂ) := by
    intro sd h
    unfold hermext
    rw [if_neg (by norm_num)]
    norm_num
    rw [h]
    rw [show ((-(1 / 2) : ℂ)) = (((-(1 / 2) : ℝ)) : ℂ) by push_cast; ring, Complex.conj_ofReal]
  rw [hh0 _ hsd0, hh1 _ hsd1, hh2 _ hsd1]
  have hE0 : Complex.exp (2 * (Real.pi : ℂ) * Complex.I * ((0 : ℕ) : ℂ) * ((1 : ℕ) : ℂ) / ((3 : ℕ) : ℂ)) = 1 := by
    norm_num [Complex.exp_zero]
  have hE1 : Complex.exp (2 * (Real.pi : ℂ) * Complex.I * ((1 : ℕ) : ℂ) * ((1 : ℕ) : ℂ) / ((3 : ℕ) : ℂ))
      = Complex.exp (2 * (Real.pi : ℂ) * Complex.I / 3) := by
    congr 1
    push_cast
    ring
  have hE2 : Complex.exp (2 * (Real.pi : ℂ) * Complex.I * ((2 : ℕ) : ℂ) * ((1 : ℕ) : ℂ) / ((3 : ℕ) : ℂ))
      = Complex.exp (2 * (Real.pi : ℂ) * Complex.I / 3) ^ 2 := by
    rw [← Complex.exp_nat_mul]
    congr 1
    push_cast
    ring
  rw [hE0, hE1, hE2, zero_add]
  rw [show (1 : ℂ) * 1 + -(1 / 2 : ℂ) * Complex.exp (2 * (Real.pi : ℂ) * Complex.I / 3)
      + -(1 / 2 : ℂ) * Complex.exp (2 * (Real.pi : ℂ) * Complex.I / 3) ^ 2
      = ((3 / 2 : ℝ) : ℂ) by push_cast; linear_combination (-(1 / 2) : ℂ) * cube_root_sum]
  exact Complex.ofReal_re _

/-- Full inverse-path output at `N = 3`, sample 1: `(3/2)·(1/3) = 1/2`. -/
lemma rdo3_output_val :
    (aubio_fft_rdo 3 (aubio_fft_do 3 fftScratchZero f3).1 (aubio_fft_do 3 fftScratchZero f3).2).2 1
      = 1 / 2 := by
  have hr : (aubio_fft_rdo 3 (aubio_fft_do 3 fftScratchZero f3).1
        (aubio_fft_do 3 fftScratchZero f3).2).2
      = (aubio_fft_rdo_complex 3
          { aubio_fft_do_complex 3 fftScratchZero f3 with
              compspec := aubio_fft_get_realimag 3
                (aubio_fft_get_spectrum 3 (aubio_fft_do_complex 3 fftScratchZero f3).compspec)
                (aubio_fft_do_complex 3 fftScratchZero f3).compspec }
          (aubio_fft_get_realimag 3
            (aubio_fft_get_spectrum 3 (aubio_fft_do_complex 3 fftScratchZero f3).compspec)
            (aubio_fft_do_complex 3 fftScratchZero f3).compspec)).2 := rfl
  rw [hr, rdo_complex_output 3 _ _ 1 (by norm_num), idft3_val]
  norm_num

/-- Packed entries that the forward transform freshly writes do not depend on
the previous scratch state. -/
lemma do_compspec_indep (N : ℕ) (st1 st2 : FFTScratch) (input : ℕ → ℝ) (i : ℕ)
    (hi : i ≤ N / 2 ∨ (1 ≤ N - i ∧ N - i < N / 2)) :
    (aubio_fft_do_complex N st1 input).compspec i
      = (aubio_fft_do_complex N st2 input).compspec i := by
  by_cases h2 : i ≤ N / 2
  · rw [do_complex_compspec_low N st1 input i h2, do_complex_compspec_low N st2 input i h2]
  · have h : 1 ≤ N - i ∧ N - i < N / 2 := by
      rcases hi with h | h
      · exact absurd h h2
      · exact h
    rw [do_complex_compspec_high N st1 input i h.1 h.2 (by omega),
      do_complex_compspec_high N st2 input i h.1 h.2 (by omega)]

/-- `aubio_fft_get_norm` reads the packed vector only at indices freshly
written by the forward transform. -/
lemma get_norm_congr (N : ℕ) (c d : ℕ → ℝ)
    (h : ∀ i, (i ≤ N / 2 ∨ (1 ≤ N - i ∧ N - i < N / 2)) → c i = d i)
    (j : ℕ) (hj : j ≤ N / 2) :
    aubio_fft_get_norm N c j = aubio_fft_get_norm N d j := by
  rcases eq_or_ne j 0 with rfl | hj0
  · rw [get_norm_zero, get_norm_zero, h 0 (Or.inl (by omega))]
  · rcases lt_or_ge j (N / 2) with hlt | hge
    · have hcov : (N - j ≤ N / 2 ∨ (1 ≤ N - (N - j) ∧ N - (N - j) < N / 2)) := by
        by_cases hx : N - j ≤ N / 2
        · exact Or.inl hx
        · right
          constructor <;> omega
      rw [get_norm_interior N c j hj0 hlt, get_norm_interior N d j hj0 hlt,
        h j (Or.inl hj), h (N - j) hcov]
    · have hje : j = N / 2 := le_antisymm hj hge
      subst hje
      rw [get_norm_last N c hj0, get_norm_last N d hj0, h (N / 2) (Or.inl le_rfl)]

/-- `aubio_fft_get_phas` reads the packed vector only at indices freshly
written by the forward transform. -/
lemma get_phas_congr (N : ℕ) (c d : ℕ → ℝ)
    (h : ∀ i, (i ≤ N / 2 ∨ (1 ≤ N - i ∧ N - i < N / 2)) → c i = d i)
    (j : ℕ) (hj : j ≤ N / 2) :
    aubio_fft_get_phas N c j = aubio_fft_get_phas N d j := by
  rcases eq_or_ne j 0 with rfl | hj0
  · rw [get_phas_zero, get_phas_zero, h 0 (Or.inl (by omega))]
  · rcases lt_or_ge j (N / 2) with hlt | hge
    · have hcov : (N - j ≤ N / 2 ∨ (1 ≤ N - (N - j) ∧ N - (N - j) < N / 2)) := by
        by_cases hx : N - j ≤ N / 2
        · exact Or.inl hx
        · right
          constructor <;> omega
      rw [get_phas_interior N c j hj0 hlt, get_phas_interior N d j hj0 hlt,
        h j (Or.inl hj), h (N - j) hcov]
    · have hje : j = N / 2 := le_antisymm hj hge
      subst hje
      rw [get_phas_last N c hj0, get_phas_last N d hj0, h (N / 2) (Or.inl le_rfl)]

/-- Entries of the packed vector rebuilt by `aubio_fft_get_realimag` that are
freshly written do not depend on the destination buffer's previous content. -/
lemma get_realimag_indep (N : ℕ) (spec : Cvec) (c d : ℕ → ℝ) (i : ℕ)
    (hi : i < N / 2 + 1 ∨ (1 ≤ N - i ∧ N - i < (N + 1) / 2)) :
    aubio_fft_get_realimag N spec c i = aubio_fft_get_realimag N spec d i := by
  unfold aubio_fft_get_realimag aubio_fft_get_real aubio_fft_get_imag
  by_cases h1 : i < N / 2 + 1
  · simp only [if_pos h1]
  · simp only [if_neg h1]
    have h2 : 1 ≤ N - i ∧ N - i < (N + 1) / 2 := by
      rcases hi with h | h
      · exact absurd h h1
      · exact h
    simp only [if_pos h2]

/-- The spectrum produced by `aubio_fft_do` does not depend on the previous
scratch state: its `norm` and `phas` entries agree across any two states. -/
lemma do_output_indep (N : ℕ) (st1 st2 : FFTScratch) (input : ℕ → ℝ) (j : ℕ)
    (hj : j ≤ N / 2) :
    (aubio_fft_do N st1 input).2.norm j = (aubio_fft_do N st2 input).2.norm j
    ∧ (aubio_fft_do N st1 input).2.phas j = (aubio_fft_do N st2 input).2.phas j := by
  have hcs : ∀ i, (i ≤ N / 2 ∨ (1 ≤ N - i ∧ N - i < N / 2)) →
      (aubio_fft_do_complex N st1 input).compspec i
      = (aubio_fft_do_complex N st2 input).compspec i :=
    fun i hi => do_compspec_indep N st1 st2 input i hi
  exact ⟨get_norm_congr N _ _ hcs j hj, get_phas_congr N _ _ hcs j hj⟩

/-- The frame produced by `aubio_fft_rdo` does not depend on the previous
scratch state. -/
lemma rdo_output_indep (N : ℕ) (st1 st2 : FFTScratch) (spec : Cvec) (n : ℕ) (hn : n < N) :
    (aubio_fft_rdo N st1 spec).2 n = (aubio_fft_rdo N st2 spec).2 n := by
  have e1 : (aubio_fft_rdo N st1 spec).2
      = (aubio_fft_rdo_complex N
          { st1 with compspec := aubio_fft_get_realimag N spec st1.compspec }
          (aubio_fft_get_realimag N spec st1.compspec)).2 := rfl
  have e2 : (aubio_fft_rdo N st2 spec).2
      = (aubio_fft_rdo_complex N
          { st2 with compspec := aubio_fft_get_realimag N spec st2.compspec }
          (aubio_fft_get_realimag N spec st2.compspec)).2 := rfl
  rw [e1, e2, rdo_complex_output N _ _ n hn, rdo_complex_output N _ _ n hn]
  congr 1
  apply idft_congr
  intro k hk
  rcases eq_or_ne k 0 with rfl | hk0
  · rw [rdo_specdata_zero, rdo_specdata_zero,
      get_realimag_indep N spec st1.compspec st2.compspec 0 (Or.inl (by omega))]
  · rcases lt_or_ge k (N / 2) with hlt | hge
    · rw [rdo_specdata_mid N _ _ k hk0 hlt, rdo_specdata_mid N _ _ k hk0 hlt,
        get_realimag_indep N spec st1.compspec st2.compspec k (Or.inl (by omega)),
        get_realimag_indep N spec st1.compspec st2.compspec (N - k)
          (Or.inr (by constructor <;> omega))]
    · have hke : k = N / 2 := le_antisymm hk hge
      subst hke
      rw [rdo_specdata_half N _ _ hk0, rdo_specdata_half N _ _ hk0,
        get_realimag_indep N spec st1.compspec st2.compspec (N / 2) (Or.inl (by omega))]

/-- C1 counterexample: window size 3 is accepted at construction
(`new_aubio_fft` rejects nothing and FFTW plans any positive size), yet on
the freshly constructed instance the inverse of the forward transform of the
impulse-at-1 frame returns `1/2` at sample 1 where the input was `1`, so
`inverse(forward(frame))` does not reproduce `frame` for every accepted
window size. -/
theorem C1_roundtrip_counterexample :
    (aubio_fft_rdo 3 (aubio_fft_do 3 fftScratchZero f3).1
        (aubio_fft_do 3 fftScratchZero f3).2).2 1 = 1 / 2
    ∧ f3 1 = 1
    ∧ (aubio_fft_rdo 3 (aubio_fft_do 3 fftScratchZero f3).1
        (aubio_fft_do 3 fftScratchZero f3).2).2 1 ≠ f3 1 := by
  refine ⟨rdo3_output_val, rfl, ?_⟩
  rw [rdo3_output_val, show f3 1 = 1 from rfl]
  norm_num

/-- C1 (amended): for every even window size `N > 0`, every frame of length
`N` and every scratch state, applying `aubio_fft_do` and then `aubio_fft_rdo`
reproduces the frame exactly when the engine is the exact real DFT and its
unnormalized inverse. -/
theorem C1_roundtrip_even (N : ℕ) (hE : Even N) (hN : 0 < N) (st : FFTScratch)
    (input : ℕ → ℝ) (n : ℕ) (hn : n < N) :
    (aubio_fft_rdo N (aubio_fft_do N st input).1 (aubio_fft_do N st input).2).2 n = input n :=
  roundtrip_even N hE hN st input n hn

/-- Witness for C1 (amended) at `N = 2`, impulse input, sample 0. -/
theorem C1_roundtrip_even_witness :
    Even 2 ∧ 0 < 2 ∧ 0 < 2 ∧
    (aubio_fft_rdo 2 (aubio_fft_do 2 fftScratchZero f2).1
        (aubio_fft_do 2 fftScratchZero f2).2).2 0 = f2 0 :=
  ⟨⟨1, rfl⟩, by decide, by decide,
    C1_roundtrip_even 2 ⟨1, rfl⟩ (by decide) fftScratchZero f2 0 (by decide)⟩

/-- C2: for every packed vector `c` of even length `N`, converting to a polar
spectrum with `aubio_fft_get_spectrum` and back with
`aubio_fft_get_realimag` rewrites every entry of the destination buffer
(whatever it previously held) with the original packed value, i.e.
`norm[k]·cos(phas[k])` and `norm[k]·sin(phas[k])` recover the packed real and
imaginary components. -/
theorem C2_spectrum_realimag_id (N : ℕ) (hE : Even N) (c c2 : ℕ → ℝ) (i : ℕ) (hi : i < N) :
    aubio_fft_get_realimag N (aubio_fft_get_spectrum N c) c2 i = c i :=
  realimag_spectrum_id N hE c c2 i hi

/-- Witness for C2 at `N = 2`, constant packed vector, index 0. -/
theorem C2_spectrum_realimag_id_witness :
    Even 2 ∧ 0 < 2 ∧
    aubio_fft_get_realimag 2 (aubio_fft_get_spectrum 2 cW) (fun _ => 0) 0 = cW 0 :=
  ⟨⟨1, rfl⟩, by decide, C2_spectrum_realimag_id 2 ⟨1, rfl⟩ cW (fun _ => 0) 0 (by decide)⟩

/-- C3: for every packed vector of even length `N` and every interior bin
`1 ≤ k < N/2`, the polar conversion gives
`norm[k] = sqrt(packed[k]² + packed[N-k]²)` and
`phas[k] = atan2(packed[N-k], packed[k])`, with the imaginary component as
the first `atan2` argument. -/
theorem C3_interior_bins (N : ℕ) (_hE : Even N) (c : ℕ → ℝ) (k : ℕ)
    (h1 : 1 ≤ k) (h2 : k < N / 2) :
    aubio_fft_get_norm N c k = Real.sqrt (c k ^ 2 + c (N - k) ^ 2)
    ∧ aubio_fft_get_phas N c k = ATAN2 (c (N - k)) (c k) := by
  constructor
  · rw [get_norm_interior N c k (by omega) h2]
    congr 1
    ring
  · exact get_phas_interior N c k (by omega) h2

/-- Witness for C3 at `N = 4`, bin 1. -/
theorem C3_interior_bins_witness :
    Even 4 ∧ 1 ≤ 1 ∧ 1 < 4 / 2 ∧
    (aubio_fft_get_norm 4 cW 1 = Real.sqrt (cW 1 ^ 2 + cW 3 ^ 2)
      ∧ aubio_fft_get_phas 4 cW 1 = ATAN2 (cW 3) (cW 1)) :=
  ⟨⟨2, rfl⟩, by decide, by decide, C3_interior_bins 4 ⟨2, rfl⟩ cW 1 (by decide) (by decide)⟩

/-- C4: for every packed vector of even length `N > 0`, the polar conversion
gives `norm[0] = |packed[0]|` and `norm[N/2] = |packed[N/2]|`, and the DC and
Nyquist phases are each exactly 0 or π, equal to π precisely when the
corresponding packed entry is negative. -/
theorem C4_dc_nyquist (N : ℕ) (hE : Even N) (hN : 0 < N) (c : ℕ → ℝ) :
    aubio_fft_get_norm N c 0 = |c 0|
    ∧ aubio_fft_get_norm N c (N / 2) = |c (N / 2)|
    ∧ (aubio_fft_get_phas N c 0 = 0 ∨ aubio_fft_get_phas N c 0 = Real.pi)
    ∧ (aubio_fft_get_phas N c 0 = Real.pi ↔ c 0 < 0)
    ∧ (aubio_fft_get_phas N c (N / 2) = 0 ∨ aubio_fft_get_phas N c (N / 2) = Real.pi)
    ∧ (aubio_fft_get_phas N c (N / 2) = Real.pi ↔ c (N / 2) < 0) := by
  have hmod : N % 2 = 0 := Nat.even_iff.mp hE
  have h0 : N / 2 ≠ 0 := by omega
  rw [get_norm_zero, get_norm_last N c h0, get_phas_zero, get_phas_last N c h0]
  refine ⟨rfl, rfl, ?_, ?_, ?_, ?_⟩
  · by_cases hc : c 0 < 0
    · exact Or.inr (if_pos hc)
    · exact Or.inl (if_neg hc)
  · by_cases hc : c 0 < 0
    · rw [if_pos hc]
      exact ⟨fun _ => hc, fun _ => rfl⟩
    · rw [if_neg hc]
      exact ⟨fun h => absurd h.symm Real.pi_ne_zero, fun h => absurd h hc⟩
  · by_cases hc : c (N / 2) < 0
    · exact Or.inr (if_pos hc)
    · exact Or.inl (if_neg hc)
  · by_cases hc : c (N / 2) < 0
    · rw [if_pos hc]
      exact ⟨fun _ => hc, fun _ => rfl⟩
    · rw [if_neg hc]
      exact ⟨fun h => absurd h.symm Real.pi_ne_zero, fun h => absurd h hc⟩

/-- Witness for C4 at `N = 2`, constant packed vector. -/
theorem C4_dc_nyquist_witness :
    Even 2 ∧ 0 < 2 ∧
    (aubio_fft_get_norm 2 cW 0 = |cW 0|
      ∧ aubio_fft_get_norm 2 cW (2 / 2) = |cW (2 / 2)|
      ∧ (aubio_fft_get_phas 2 cW 0 = 0 ∨ aubio_fft_get_phas 2 cW 0 = Real.pi)
      ∧ (aubio_fft_get_phas 2 cW 0 = Real.pi ↔ cW 0 < 0)
      ∧ (aubio_fft_get_phas 2 cW (2 / 2) = 0 ∨ aubio_fft_get_phas 2 cW (2 / 2) = Real.pi)
      ∧ (aubio_fft_get_phas 2 cW (2 / 2) = Real.pi ↔ cW (2 / 2) < 0)) :=
  ⟨⟨1, rfl⟩, by decide, C4_dc_nyquist 2 ⟨1, rfl⟩ (by decide) cW⟩

/-- C5: for even `N`, the imaginary-part step writes
`packed[N-k] = norm[k]·sin(phas[k])` exactly for `1 ≤ k < (N+1)/2`, leaves
packed indices `0..N/2` unchanged, and the real-part step writes
`packed[k] = norm[k]·cos(phas[k])` for every `0 ≤ k ≤ N/2`. -/
theorem C5_polar_to_packed (N : ℕ) (hE : Even N) (spec : Cvec) (c : ℕ → ℝ) :
    (∀ k, 1 ≤ k → k < (N + 1) / 2 →
      aubio_fft_get_imag N spec c (N - k) = spec.norm k * Real.sin (spec.phas k))
    ∧ (∀ i, i ≤ N / 2 → aubio_fft_get_imag N spec c i = c i)
    ∧ (∀ k, k ≤ N / 2 →
      aubio_fft_get_real N spec c k = spec.norm k * Real.cos (spec.phas k)) := by
  have hmod : N % 2 = 0 := Nat.even_iff.mp hE
  refine ⟨?_, ?_, ?_⟩
  · intro k h1 h2
    have hcond : 1 ≤ N - (N - k) ∧ N - (N - k) < (N + 1) / 2 := by
      constructor <;> omega
    have hNk : N - (N - k) = k := by omega
    simp only [aubio_fft_get_imag]
    rw [if_pos hcond, hNk]
  · intro i hi
    have hcond : ¬ (1 ≤ N - i ∧ N - i < (N + 1) / 2) := by omega
    simp only [aubio_fft_get_imag]
    rw [if_neg hcond]
  · intro k hk
    simp only [aubio_fft_get_real]
    rw [if_pos (by omega)]

/-- Witness for C5 at `N = 4`: bin 1 imaginary slot, untouched index 2,
real slot 1. -/
theorem C5_polar_to_packed_witness :
    Even 4 ∧ 1 ≤ 1 ∧ 1 < (4 + 1) / 2 ∧ 2 ≤ 4 / 2 ∧
    (aubio_fft_get_imag 4 specW cW (4 - 1) = specW.norm 1 * Real.sin (specW.phas 1)
      ∧ aubio_fft_get_imag 4 specW cW 2 = cW 2
      ∧ aubio_fft_get_real 4 specW cW 1 = specW.norm 1 * Real.cos (specW.phas 1)) :=
  ⟨⟨2, rfl⟩, by decide, by decide, by decide,
    (C5_polar_to_packed 4 ⟨2, rfl⟩ specW cW).1 1 (by decide) (by decide),
    (C5_polar_to_packed 4 ⟨2, rfl⟩ specW cW).2.1 2 (by decide),
    (C5_polar_to_packed 4 ⟨2, rfl⟩ specW cW).2.2 1 (by decide)⟩

/-- C6: the forward path applies no scaling — packed real slots `0..N/2` hold
the raw real parts of the engine bins and packed slot `N-j` the raw imaginary
part of bin `j` for `1 ≤ j < N/2` — while every sample of the inverse path's
output frame is the engine's unnormalized inverse output times `1/N`. -/
theorem C6_normalization (N : ℕ) (st : FFTScratch) (input c : ℕ → ℝ) :
    (∀ k, k ≤ N / 2 → (aubio_fft_do_complex N st input).compspec k = (dft N input k).re)
    ∧ (∀ j, 1 ≤ j → j < N / 2 →
        (aubio_fft_do_complex N st input).compspec (N - j) = (dft N input j).im)
    ∧ (∀ n, n < N → (aubio_fft_rdo_complex N st c).2 n
        = idft N (aubio_fft_rdo_complex N st c).1.specdata n * (1 / (N : ℝ))) := by
  refine ⟨?_, ?_, ?_⟩
  · intro k hk
    exact do_complex_compspec_low N st input k hk
  · intro j h1 h2
    have h3 : N - (N - j) = j := by omega
    rw [do_complex_compspec_high N st input (N - j) (by omega) (by omega) (by omega), h3]
  · intro n hn
    exact rdo_complex_output N st c n hn

/-- Witness for C6 at `N = 4`: real bin 0, imaginary slot of bin 1,
output sample 0. -/
theorem C6_normalization_witness :
    0 ≤ 4 / 2 ∧ 1 ≤ 1 ∧ 1 < 4 / 2 ∧ 0 < 4 ∧
    ((aubio_fft_do_complex 4 fftScratchZero f3).compspec 0 = (dft 4 f3 0).re
      ∧ (aubio_fft_do_complex 4 fftScratchZero f3).compspec (4 - 1) = (dft 4 f3 1).im
      ∧ (aubio_fft_rdo_complex 4 fftScratchZero cW).2 0
          = idft 4 (aubio_fft_rdo_complex 4 fftScratchZero cW).1.specdata 0
            * (1 / ((4 : ℕ) : ℝ))) :=
  ⟨by decide, by decide, by decide, by decide,
    (C6_normalization 4 fftScratchZero f3 cW).1 0 (by decide),
    (C6_normalization 4 fftScratchZero f3 cW).2.1 1 (by decide) (by decide),
    (C6_normalization 4 fftScratchZero f3 cW).2.2 0 (by decide)⟩

/-- C7 counterexample: for a planner that rejects window size 0,
`new_aubio_fft` does not signal a construction error: it returns a (partial,
unusable) instance whose two plan fields hold the planner's NULL results. -/
theorem C7_construction_counterexample :
    rejectZeroPlanner 0 = none
    ∧ new_aubio_fft rejectZeroPlanner 0
        = some { winsize := 0, fft_size := 1, pfw := none, pbw := none }
    ∧ new_aubio_fft rejectZeroPlanner 0 ≠ none := by
  refine ⟨rfl, rfl, ?_⟩
  intro h
  exact Option.noConfusion h

/-- C7 (amended): `new_aubio_fft` performs no error checking at all — for
every planner and window size it returns an instance, storing whatever the
planner produced (including NULL plans) unchecked. -/
theorem C7_construction_unchecked (planner : ℕ → Option Unit) (w : ℕ) :
    new_aubio_fft planner w
      = some { winsize := w, fft_size := w / 2 + 1, pfw := planner w, pbw := planner w } :=
  rfl

/-- C8: the two `fftw_destroy_plan` calls of `del_aubio_fft` (trace positions
1 and 2) are issued while the planning mutex is NOT held — the destructor
contains no lock or unlock call at all — whereas the plan-creation calls of
`new_aubio_fft` (positions 5 and 6) are issued under the mutex. -/
theorem C8_destroy_without_mutex :
    del_aubio_fft_calls[1]? = some FFTCall.destroyPlan
    ∧ del_aubio_fft_calls[2]? = some FFTCall.destroyPlan
    ∧ ¬ mutexHeldAt del_aubio_fft_calls 1
    ∧ ¬ mutexHeldAt del_aubio_fft_calls 2
    ∧ del_aubio_fft_calls.count FFTCall.lock = 0
    ∧ del_aubio_fft_calls.count FFTCall.unlock = 0
    ∧ new_aubio_fft_calls[5]? = some FFTCall.createPlan
    ∧ new_aubio_fft_calls[6]? = some FFTCall.createPlan
    ∧ mutexHeldAt new_aubio_fft_calls 5
    ∧ mutexHeldAt new_aubio_fft_calls 6 := by
  decide

/-- C9: outputs depend only on the arguments, not on residual scratch state:
for any two prior states, `aubio_fft_do` produces identical spectra and
`aubio_fft_rdo` identical frames on identical inputs. -/
theorem C9_no_residual_state (N : ℕ) (st1 st2 : FFTScratch) (input : ℕ → ℝ) (spec : Cvec)
    (j n : ℕ) (hj : j ≤ N / 2) (hn : n < N) :
    ((aubio_fft_do N st1 input).2.norm j = (aubio_fft_do N st2 input).2.norm j
      ∧ (aubio_fft_do N st1 input).2.phas j = (aubio_fft_do N st2 input).2.phas j)
    ∧ (aubio_fft_rdo N st1 spec).2 n = (aubio_fft_rdo N st2 spec).2 n :=
  ⟨do_output_indep N st1 st2 input j hj, rdo_output_indep N st1 st2 spec n hn⟩

/-- Witness for C9 at `N = 2`, zero versus all-ones scratch. -/
theorem C9_no_residual_state_witness :
    0 ≤ 2 / 2 ∧ 0 < 2 ∧
    (((aubio_fft_do 2 fftScratchZero f2).2.norm 0 = (aubio_fft_do 2 fftScratchOne f2).2.norm 0
      ∧ (aubio_fft_do 2 fftScratchZero f2).2.phas 0 = (aubio_fft_do 2 fftScratchOne f2).2.phas 0)
    ∧ (aubio_fft_rdo 2 fftScratchZero specW).2 0 = (aubio_fft_rdo 2 fftScratchOne specW).2 0) :=
  ⟨by decide, by decide,
    C9_no_residual_state 2 fftScratchZero fftScratchOne f2 specW 0 0 (by decide) (by decide)⟩

/-- C10: every phase written by `aubio_fft_get_phas` (spectrum indices
`0..N/2`) lies in `[-π, π]`, and the zero-bin `atan2(0,0)` convention is 0. -/
theorem C10_phase_range (N : ℕ) (c : ℕ → ℝ) (j : ℕ) (hj : j ≤ N / 2) :
    (-Real.pi ≤ aubio_fft_get_phas N c j ∧ aubio_fft_get_phas N c j ≤ Real.pi)
    ∧ ATAN2 0 0 = 0 := by
  have hpi := Real.pi_pos
  constructor
  · rcases eq_or_ne j 0 with rfl | hj0
    · rw [get_phas_zero]
      by_cases hc : c 0 < 0
      · rw [if_pos hc]
        constructor <;> linarith
      · rw [if_neg hc]
        constructor <;> linarith
    · rcases lt_or_ge j (N / 2) with hlt | hge
      · rw [get_phas_interior N c j hj0 hlt]
        unfold ATAN2
        exact ⟨le_of_lt (Complex.neg_pi_lt_arg _), Complex.arg_le_pi _⟩
      · have hje : j = N / 2 := le_antisymm hj hge
        subst hje
        rw [get_phas_last N c hj0]
        by_cases hc : c (N / 2) < 0
        · rw [if_pos hc]
          constructor <;> linarith
        · rw [if_neg hc]
          constructor <;> linarith
  · unfold ATAN2
    have hz : ((⟨0, 0⟩ : ℂ)) = 0 := rfl
    rw [hz, Complex.arg_zero]

/-- Witness for C10 at `N = 4`, interior bin 1. -/
theorem C10_phase_range_witness :
    1 ≤ 4 / 2 ∧
    ((-Real.pi ≤ aubio_fft_get_phas 4 cW 1 ∧ aubio_fft_get_phas 4 cW 1 ≤ Real.pi)
      ∧ ATAN2 0 0 = 0) :=
  ⟨by decide, C10_phase_range 4 cW 1 (by decide)⟩
